import Mathlib

/-!
Verification development for the `pls` directory-listing engine.

Shallow embedding of the node-organization and terminal-rendering pipeline:
sort fields and the comparator chain (src/enums/sort_field.rs), the sort loop
and collapse resolver (src/models/pls.rs), the table width computation
(src/output/table.rs) and the Kitty graphics encoder/stripper
(src/gfx/kitty.rs).  Machine integers are modelled as `Nat` (the code only
compares them, no overflow is possible); fallible / panicking code returns
`Except String`; the panic payload is the source's panic message.
-/

set_option maxRecDepth 4096
set_option linter.unusedVariables false

deriving instance DecidableEq for Except

namespace PlsV

/-- Node type tag.  Modelled from the spec: the `Typ` enum itself
(`src/enums/typ.rs`) is not among the excerpted sources; the spec lists the
closed tag set {Dir, Symlink, Fifo, Socket, BlockDevice, CharDevice, File,
Unknown} in that order, and the sort engine compares tags by their derived
order (declaration order). -/
inductive Typ where
  | dir
  | symlink
  | fifo
  | socket
  | blockDevice
  | charDevice
  | file
  | unknown
deriving DecidableEq

/-- Declaration index of a type tag, used for the derived `Ord`. -/
def Typ.idx : Typ → Nat
  | .dir => 0
  | .symlink => 1
  | .fifo => 2
  | .socket => 3
  | .blockDevice => 4
  | .charDevice => 5
  | .file => 6
  | .unknown => 7

/-- Derived ordering on type tags (declaration order). -/
def Typ.cmp (a b : Typ) : Ordering := compare a.idx b.idx

/-- Node category.  Modelled from the spec: "node category (directory or
file)"; only `Dir` counts as a directory, every other tag is a file. -/
inductive Cat where
  | dir
  | file
deriving DecidableEq

/-- Category of a type tag.  Modelled from the spec. -/
def Typ.cat : Typ → Cat
  | .dir => Cat.dir
  | _ => Cat.file

/-- Ordering on categories: directories sort before files.
Modelled from the spec. -/
def Cat.cmp (a b : Cat) : Ordering :=
  match a, b with
  | .dir, .dir => .eq
  | .dir, .file => .lt
  | .file, .dir => .gt
  | .file, .file => .eq

/-- The ways a node can appear (src/enums/appearance.rs). -/
inductive Appearance where
  | normal
  | symlink
  | treeChild
  | treeParent
  | soloFile
deriving DecidableEq

/-- Collapse rules (src/enums/collapse.rs): collapse by exact name or by
extension. -/
inductive Collapse where
  | name (s : String)
  | ext (s : String)
deriving DecidableEq

/-- Requested output columns.  Modelled from the spec: `DetailField`
(`src/enums/detail_field.rs`) is not among the excerpted sources; the spec
describes it as the sort bases plus presentation-only fields (permission
string, octal permissions, display name). -/
inductive DetailField where
  | dev
  | ino
  | nlink
  | perm
  | oct
  | user
  | uid
  | group
  | gid
  | btime
  | ctime
  | mtime
  | atime
  | size
  | blocks
  | typ
  | name
  | cname
  | ext
deriving DecidableEq

/-- Raw metadata of a node, as read by a non-following stat.  Modelled from
the spec: numeric stat fields are compared as naturals; the four timestamp
kinds are platform-dependent and therefore optional; the file type tag is
derived from the metadata. -/
structure Meta where
  dev : Nat
  ino : Nat
  nlink : Nat
  uid : Nat
  gid : Nat
  size : Nat
  blocks : Nat
  btime : Option Nat
  ctime : Option Nat
  mtime : Option Nat
  atime : Option Nat
  typ : Typ
deriving DecidableEq

/-- Owner-name cache.  Modelled from the spec: `OwnerMan` maps numeric
user/group IDs to resolved names; the cache only avoids repeated OS lookups
and is semantically a pure lookup, so it is modelled as a pair of lookup
functions and needs no threading of mutable state. -/
structure OwnerMan where
  userName : Nat → String
  groupName : Nat → String

/-- A classification rule (spec list of `Conf`).  Modelled from the spec:
`Spec` (`src/models/spec.rs`) is not among the excerpted sources; a spec
pairs a pattern with optional style/icon, an importance integer and an
optional collapse rule.  The compiled pattern is kept as its source text
(pattern matching itself is out of scope of the claims). -/
structure Spec where
  pattern : String
  style : Option String
  icon : Option String
  importance : Int
  collapse : Option Collapse
deriving DecidableEq

/-- One filesystem entry (src/models/node.rs), extended with the
collapse-target key and child list that collapse resolution fills in
(described in the spec's data model).  `meta` is optional: the spec's
invariant is that metadata may be absent/unreadable and consumers degrade. -/
inductive Node where
  | mk
      (name : String)
      (path : String)
      (meta : Option Meta)
      (typ : Typ)
      (appearance : Appearance)
      (specs : List Spec)
      (collapseName : Option String)
      (children : List Node)

def Node.name : Node → String
  | .mk n _ _ _ _ _ _ _ => n

def Node.path : Node → String
  | .mk _ p _ _ _ _ _ _ => p

def Node.meta : Node → Option Meta
  | .mk _ _ m _ _ _ _ _ => m

def Node.typ : Node → Typ
  | .mk _ _ _ t _ _ _ _ => t

def Node.appearance : Node → Appearance
  | .mk _ _ _ _ a _ _ _ => a

def Node.specs : Node → List Spec
  | .mk _ _ _ _ _ s _ _ => s

def Node.collapseName : Node → Option String
  | .mk _ _ _ _ _ _ c _ => c

def Node.children : Node → List Node
  | .mk _ _ _ _ _ _ _ c => c

/-- Fallible metadata access.  Modelled from the spec: `meta_ok` (used by
`SortField::compare_meta`) is not among the excerpted sources; it exposes the
node's metadata only when it was readable. -/
def Node.meta_ok (n : Node) : Option Meta := n.meta

/-- Lowercase a string (models Rust's `to_lowercase` for the ASCII names the
engine manipulates). -/
def lowerStr (s : String) : String := ⟨s.data.map Char.toLower⟩

/-- Final path segment (the part after the last `/`), used for extensions. -/
def pathFileName (p : String) : List Char :=
  (p.data.reverse.takeWhile (fun c => c ≠ '/')).reverse

/-- Extension of a file name, with Rust `Path::extension` semantics: the part
after the last dot, empty when there is no dot or the only dot leads the
name. -/
def extOf (fname : List Char) : List Char :=
  let pre := fname.reverse.takeWhile (fun c => c ≠ '.')
  if pre.length + 1 < fname.length then pre.reverse else []

/-- Extension of a node (src/traits/name.rs `Name::ext`): computed from the
node's path; blank when the node has no extension. -/
def Node.ext (n : Node) : String := ⟨extOf (pathFileName n.path)⟩

/-- Canonical name of a node (src/traits/name.rs `Name::cname`): the name
lowercased and stripped of leading non-alphanumeric characters. -/
def Node.cname (n : Node) : String :=
  ⟨(n.name.data.map Char.toLower).dropWhile (fun c => ¬ c.isAlphanum)⟩

/-- Resolved owner user name.  Modelled from the spec: `user_val` is not
among the excerpted sources; the user name is resolved from the metadata's
uid through the owner cache and is absent when metadata is unreadable. -/
def Node.user_val (n : Node) (om : OwnerMan) : Option String :=
  n.meta_ok.map (fun m => om.userName m.uid)

/-- Resolved owner group name.  Modelled from the spec, like `user_val`. -/
def Node.group_val (n : Node) (om : OwnerMan) : Option String :=
  n.meta_ok.map (fun m => om.groupName m.gid)

/-- Timestamp of a node for a timestamp detail field.  Modelled from the
spec: `time_val` is not among the excerpted sources; a timestamp applies
only when the metadata is readable and that platform-dependent field is
exposed. -/
def Node.time_val (n : Node) (f : DetailField) : Option Nat :=
  n.meta_ok.bind (fun m =>
    match f with
    | .btime => m.btime
    | .ctime => m.ctime
    | .mtime => m.mtime
    | .atime => m.atime
    | _ => Option.none)

/-- Ordering on optional values, as Rust derives it: `None` sorts before
`Some`. -/
def optCmp (c : α → α → Ordering) : Option α → Option α → Ordering
  | Option.none, Option.none => .eq
  | Option.none, some _ => .lt
  | some _, Option.none => .gt
  | some a, some b => c a b

/-- Byte-wise string ordering (Rust `str` `Ord`; UTF-8 byte order coincides
with code-point order). -/
def strCmp (a b : String) : Ordering := compare a.data b.data

/-- The sort fields (src/enums/sort_field.rs): every comparison basis, a
reversed variant per basis (trailing underscore), and the `none`
sentinel. -/
inductive SortField where
  | dev
  | ino
  | nlink
  | typ
  | cat
  | user
  | uid
  | group
  | gid
  | size
  | blocks
  | btime
  | ctime
  | mtime
  | atime
  | name
  | cname
  | ext
  | inode_
  | nlinks_
  | typ_
  | cat_
  | user_
  | uid_
  | group_
  | gid_
  | size_
  | blocks_
  | btime_
  | ctime_
  | mtime_
  | atime_
  | name_
  | cname_
  | ext_
  | none
deriving DecidableEq

/-- The clap value name of each variant (kebab-case of the variant name,
with the reversed variants' names given explicitly by `#[clap(name = ...)]`).
This is what `Display for SortField` prints. -/
def SortField.clapName : SortField → String
  | .dev => "dev"
  | .ino => "ino"
  | .nlink => "nlink"
  | .typ => "typ"
  | .cat => "cat"
  | .user => "user"
  | .uid => "uid"
  | .group => "group"
  | .gid => "gid"
  | .size => "size"
  | .blocks => "blocks"
  | .btime => "btime"
  | .ctime => "ctime"
  | .mtime => "mtime"
  | .atime => "atime"
  | .name => "name"
  | .cname => "cname"
  | .ext => "ext"
  | .inode_ => "inode_"
  | .nlinks_ => "nlinks_"
  | .typ_ => "typ_"
  | .cat_ => "cat_"
  | .user_ => "user_"
  | .uid_ => "uid_"
  | .group_ => "group_"
  | .gid_ => "gid_"
  | .size_ => "size_"
  | .blocks_ => "blocks_"
  | .btime_ => "btime_"
  | .ctime_ => "ctime_"
  | .mtime_ => "mtime_"
  | .atime_ => "atime_"
  | .name_ => "name_"
  | .cname_ => "cname_"
  | .ext_ => "ext_"
  | .none => "none"

/-- Table of clap value names, in declaration order, for `from_str`. -/
def SortField.nameTable : List (String × SortField) :=
  [("dev", .dev), ("ino", .ino), ("nlink", .nlink), ("typ", .typ),
   ("cat", .cat), ("user", .user), ("uid", .uid), ("group", .group),
   ("gid", .gid), ("size", .size), ("blocks", .blocks), ("btime", .btime),
   ("ctime", .ctime), ("mtime", .mtime), ("atime", .atime), ("name", .name),
   ("cname", .cname), ("ext", .ext), ("inode_", .inode_),
   ("nlinks_", .nlinks_), ("typ_", .typ_), ("cat_", .cat_),
   ("user_", .user_), ("uid_", .uid_), ("group_", .group_), ("gid_", .gid_),
   ("size_", .size_), ("blocks_", .blocks_), ("btime_", .btime_),
   ("ctime_", .ctime_), ("mtime_", .mtime_), ("atime_", .atime_),
   ("name_", .name_), ("cname_", .cname_), ("ext_", .ext_),
   ("none", .none)]

/-- `impl From<&str> for SortField`: clap's case-insensitive `from_str`,
falling back to the `none` sentinel when no variant matches. -/
def SortField.fromStr (s : String) : SortField :=
  ((SortField.nameTable.find? (fun p => p.1 == lowerStr s)).map Prod.snd).getD
    SortField.none

/-- `SortField::simplify`: decompose a field into its natural basis and a
direction flag by the trailing-underscore convention.  The name is printed,
all trailing underscores are trimmed and the result is parsed back. -/
def SortField.simplify (f : SortField) : SortField × Bool :=
  let nm := f.clapName
  if nm.data.getLast? = some '_' then
    (SortField.fromStr ⟨(nm.data.reverse.dropWhile (fun c => c = '_')).reverse⟩,
     true)
  else
    (f, false)

/-- `SortField::compare_no_meta`: comparisons that need no metadata (or that
account for it being absent). -/
def SortField.compare_no_meta (f : SortField) (a b : Node) (om : OwnerMan) :
    Option Ordering :=
  match f with
  | .name => some (strCmp a.name b.name)
  | .cname => some (strCmp a.cname b.cname)
  | .ext => some (strCmp a.ext b.ext)
  | .typ => some (Typ.cmp a.typ b.typ)
  | .cat => some (Cat.cmp a.typ.cat b.typ.cat)
  | .user => some (optCmp strCmp (a.user_val om) (b.user_val om))
  | .group => some (optCmp strCmp (a.group_val om) (b.group_val om))
  | _ => Option.none

/-- `SortField::compare_meta`: comparisons on metadata fields, applicable
only when both nodes' metadata is readable. -/
def SortField.compare_meta (f : SortField) (a b : Node) : Option Ordering :=
  match a.meta_ok, b.meta_ok with
  | some ma, some mb =>
    match f with
    | .dev => some (compare ma.dev mb.dev)
    | .ino => some (compare ma.ino mb.ino)
    | .nlink => some (compare ma.nlink mb.nlink)
    | .uid => some (compare ma.uid mb.uid)
    | .gid => some (compare ma.gid mb.gid)
    | .size => some (compare ma.size mb.size)
    | .blocks => some (compare ma.blocks mb.blocks)
    | _ => Option.none
  | _, _ => Option.none

/-- The panic message of the `unreachable!` arm in `SortField::compare_time`. -/
def cmpTimeUnreachableMsg : String :=
  "src/enums/sort_fields.rs / impl SortField / cmp_time"

/-- `SortField::compare_time`: comparison on a timestamp field.  The
catch-all arm of the source is `unreachable!(..)`, modelled as an error. -/
def SortField.compare_time (f : SortField) (a b : Node) :
    Except String (Option Ordering) :=
  match f with
  | .btime => .ok (match a.time_val .btime, b.time_val .btime with
      | some x, some y => some (compare x y)
      | _, _ => Option.none)
  | .ctime => .ok (match a.time_val .ctime, b.time_val .ctime with
      | some x, some y => some (compare x y)
      | _, _ => Option.none)
  | .mtime => .ok (match a.time_val .mtime, b.time_val .mtime with
      | some x, some y => some (compare x y)
      | _, _ => Option.none)
  | .atime => .ok (match a.time_val .atime, b.time_val .atime with
      | some x, some y => some (compare x y)
      | _, _ => Option.none)
  | _ => .error cmpTimeUnreachableMsg

/-- `SortField::compare`: simplify into (basis, direction), run the
no-metadata / metadata / timestamp chain, default to `Equal`, and reverse
the verdict for reversed fields.  A hit of the `unreachable!` arm of
`compare_time` propagates as an error. -/
def SortField.compare (f : SortField) (a b : Node) (om : OwnerMan) :
    Except String Ordering := do
  let (basis, is_reverse) := f.simplify
  let ord ← match basis.compare_no_meta a b om with
    | some o => Except.ok o
    | Option.none =>
      match basis.compare_meta a b with
      | some o => Except.ok o
      | Option.none => do
        let t ← basis.compare_time a b
        Except.ok (t.getD Ordering.eq)
  Except.ok (if is_reverse then ord.swap else ord)

/-- First phase of `SortField::clean`: the `none` sentinel clears everything
accumulated so far, every other field is appended. -/
def SortField.cleanPhase1 (input : List SortField) : List SortField :=
  input.foldl
    (fun acc f => if f = SortField.none then [] else acc ++ [f])
    []

/-- Second phase of `SortField::clean`: `retain` with a seen-set, keeping
each field's first occurrence. -/
def SortField.dedupKeepFirst : List SortField → List SortField → List SortField
  | [], _ => []
  | f :: rest, seen =>
    if f ∈ seen then SortField.dedupKeepFirst rest seen
    else f :: SortField.dedupKeepFirst rest (f :: seen)

/-- `SortField::clean`: clear on the `none` sentinel, then remove duplicates
preserving order. -/
def SortField.clean (input : List SortField) : List SortField :=
  SortField.dedupKeepFirst (SortField.cleanPhase1 input) []

/-! ## Sort loop (src/models/pls.rs, `Pls::list`)

Rust's `Vec::sort_by` is a stable sort ordered by the comparator; it is
modelled as a stable insertion sort (any two stable sorts agree for the
total preorders produced by `SortField::compare`).  A comparator panic
(the `unreachable!` arm) propagates out of the sort pass. -/

/-- Insert a node into an already sorted list: it goes before the first
element it does not compare `Greater` to, which preserves the original
relative order of ties (stability). -/
def insertByM (cmp : Node → Node → Except String Ordering) (a : Node) :
    List Node → Except String (List Node)
  | [] => .ok [a]
  | b :: bs => do
    let o ← cmp a b
    match o with
    | .gt => do
      let r ← insertByM cmp a bs
      .ok (b :: r)
    | _ => .ok (a :: b :: bs)

/-- One full stable sort pass of `nodes.sort_by(|a, b| field.compare(..))`. -/
def sortByField (f : SortField) (om : OwnerMan) :
    List Node → Except String (List Node)
  | [] => .ok []
  | n :: ns => do
    let r ← sortByField f om ns
    insertByM (fun a b => SortField.compare f a b om) n r

/-- The multi-key sort loop of `Pls::list`: one full stable sort pass per
requested field, in reverse order (`sort_bases.iter().rev()`), so that the
first listed field is applied last and dominates.  (The surrounding
`nodes.len() > 1` guard in the source only skips work on lists that every
sort already maps to themselves.) -/
def multiKeySort (fields : List SortField) (ns : List Node) (om : OwnerMan) :
    Except String (List Node) :=
  fields.reverse.foldlM (fun acc f => sortByField f om acc) ns

/-! ## Collapse resolution (src/models/pls.rs) -/

/-- Make a node a tree child (`Node::tree_child`).  Modelled from the spec:
attached nodes' appearance is converted to `TreeChild`. -/
def Node.tree_child : Node → Node
  | .mk n p m t _ s c ch => .mk n p m t Appearance.treeChild s c ch

/-- Attach children to a node (`Node::tree_parent`).  Modelled from the
spec: the appearance becomes `TreeParent` only if the node gained
children. -/
def Node.tree_parent : Node → List Node → Node
  | .mk n p m t a s c _, ch =>
    .mk n p m t (if ch.isEmpty then a else Appearance.treeParent) s c ch

/-- File-name stem (the part before the extension), used when an
extension-collapse rule rewrites a name. -/
def stemOf (fname : List Char) : List Char :=
  let pre := (fname.reverse.takeWhile (fun c => c ≠ '.')).length
  if pre + 1 ≤ fname.length then fname.take (fname.length - pre - 1) else fname

/-- Compute a node's collapse-target key (`Node::find_collapse`).  Modelled
from the spec: a `MatchByName` rule contributes its literal name, a
`MatchByExtension` rule the node's own name with its extension replaced;
the first collapse rule among the node's matched specs (in spec order)
applies, and the key is stored on the node. -/
def Node.find_collapse : Node → Node
  | .mk n p m t a s _ ch =>
    let key := (s.findSome? Spec.collapse).map (fun c =>
      match c with
      | Collapse.name target => target
      | Collapse.ext e => ⟨stemOf n.data ++ '.' :: e.data⟩)
    .mk n p m t a s key ch

/-- The multimap from collapse-target name to collected children.  Rust uses
`HashMap<String, Vec<Node>>` accessed only by key, which an association
list with unique keys models exactly. -/
def ChildMap := List (String × List Node)

/-- `child_map.entry(k).or_insert(vec![]).push(n)`. -/
def mapPush (m : ChildMap) (k : String) (n : Node) : ChildMap :=
  match m with
  | [] => [(k, [n])]
  | (k', ns) :: rest =>
    if k' = k then (k', ns ++ [n]) :: rest
    else (k', ns) :: mapPush rest k n

/-- `child_map.remove_entry(k)`: the collected children for `k` and the map
without that entry. -/
def mapRemove (k : String) : ChildMap → Option (List Node × ChildMap)
  | [] => Option.none
  | (k', ns) :: rest =>
    if k' = k then some (ns, rest)
    else (mapRemove k rest).map (fun p => (p.1, (k', ns) :: p.2))

/-- `Pls::make_tree_node`, threaded over a list of nodes: each node removes
its child group from the map (if any), recursively builds trees from those
children against the shrinking map, and becomes their tree parent.  The
recursion is bounded by a fuel counter; the Rust recursion terminates
because every nested call has removed a map entry, and
`resolveCollapses` passes fuel exceeding the total number of processing
steps, so the fuel-exhausted branch (which returns the remaining nodes
unchanged) is never taken there. -/
def makeTreeF : Nat → List Node → ChildMap → List Node × ChildMap
  | _, [], m => ([], m)
  | 0, n :: ns, m => (n :: ns, m)
  | fuel + 1, n :: ns, m =>
    match mapRemove n.name m with
    | Option.none =>
      let r := makeTreeF fuel ns m
      (n.tree_parent [] :: r.1, r.2)
    | some p =>
      let r1 := makeTreeF fuel p.1 p.2
      let r2 := makeTreeF fuel ns r1.2
      (n.tree_parent r1.1 :: r2.1, r2.2)

/-- `Pls::resolve_collapses`: compute each node's collapse key, split keyed
nodes (as tree children) into the multimap and keyless nodes into the root
list, then grow each root into a tree against the shared multimap. -/
def resolveCollapses (ns : List Node) : List Node :=
  let ns' := ns.map Node.find_collapse
  let r :=
    ns'.foldl
      (fun (acc : List Node × ChildMap) node =>
        match node.collapseName with
        | some collapse => (acc.1, mapPush acc.2 collapse node.tree_child)
        | Option.none => (acc.1 ++ [node], acc.2))
      ([], [])
  (makeTreeF (2 * ns.length + 2) r.1 r.2).1

/-! ## Table width computation (src/output/table.rs) -/

/-- One table row: the mapping from detail field to rendered cell text
(`HashMap<DetailField, String>`, accessed only by key). -/
def Entry := List (DetailField × String)

/-- `entry.get(det)`. -/
def entryGet (e : Entry) (d : DetailField) : Option String :=
  (e.find? (fun p => p.1 = d)).map Prod.snd

/-- `Table::max_widths`.  The printable-width function `len` (crate `fmt`),
the per-column header names (`det.name(app_const)`) and the
`uniformly_wide` predicate on detail fields are collaborators outside the
excerpted sources and are passed in as parameters (modelled from the spec:
a uniform-width column is scanned only at the header and row #1).  The
column value for the last requested column is `None` (unbounded); for the
others it is the `max` of the scan window's cell widths chained with the
header width (or 0 when the header is disabled).  The slice
`entries[0..end_lim]` panics when `end_lim` exceeds the row count, which
the `Option.none` result models. -/
def maxWidths (uw : DetailField → Bool) (nameOf : DetailField → String)
    (len : String → Nat) (header : Bool) (details : List DetailField)
    (entries : List Entry) : Option (List (Option Nat)) :=
  details.enum.mapM (fun p =>
    if p.1 = details.length - 1 then
      some Option.none
    else
      let endLim := if uw p.2 then 1 else entries.length
      if endLim ≤ entries.length then
        some (((entries.take endLim).filterMap
            (fun e => (entryGet e p.2).map len)
          ++ [if header then len (nameOf p.2) else 0]).max?)
      else
        Option.none)

/-! ## Kitty graphics encoder (src/gfx/kitty.rs) -/

/-- The escape character. -/
def ESC : Char := '\x1b'

/-- The standard base64 alphabet. -/
def b64Table : List Char :=
  "ABCDEFGHIJKLMNOPQRSTUVWXYZabcdefghijklmnopqrstuvwxyz0123456789+/".data

/-- Character for a 6-bit group. -/
def b64Char (n : Nat) : Char := b64Table.getD n 'A'

/-- `BASE64_STANDARD.encode`: standard base64 with `=` padding, over bytes. -/
def base64Encode : List Nat → List Char
  | [] => []
  | [a] => [b64Char (a / 4), b64Char (a % 4 * 16), '=', '=']
  | [a, b] => [b64Char (a / 4), b64Char (a % 4 * 16 + b / 16),
               b64Char (b % 16 * 4), '=']
  | a :: b :: c :: rest =>
    b64Char (a / 4) :: b64Char (a % 4 * 16 + b / 16) ::
    b64Char (b % 16 * 4 + c / 64) :: b64Char (c % 64) :: base64Encode rest

/-- Decimal digits of a natural number (Rust's `Display` for integers). -/
def natDigits (n : Nat) : List Char :=
  if _h : n < 10 then [Nat.digitChar n]
  else natDigits (n / 10) ++ [Nat.digitChar (n % 10)]
decreasing_by exact Nat.div_lt_self (by omega) (by omega)

/-- The payload chunk size (`CHUNK_SIZE`). -/
def CHUNK_SIZE : Nat := 4096

/-- The continuation control sequences of the `while iter.peek()` loop: each
further ≤4096-character payload slice wrapped in `\x1b_Gm=1;…\x1b\\`. -/
def contChunks (l : List Char) : List Char :=
  if l = [] then []
  else
    ESC :: '_' :: 'G' :: 'm' :: '=' :: '1' :: ';' :: l.take CHUNK_SIZE
      ++ ESC :: '\\' :: contChunks (l.drop CHUNK_SIZE)
termination_by l.length
decreasing_by
  simp only [List.length_drop, CHUNK_SIZE]
  have : 0 < l.length := List.length_pos.mpr (by assumption)
  omega

/-- The parameter list of the leading control sequence (everything between
`\x1b_G` and the `;` payload separator). -/
def headerParams (size offY : Nat) : List Char :=
  "f=32,t=d,a=T,C=1,m=1,s=".data ++ natDigits size
    ++ ",v=".data ++ natDigits size ++ ",Y=".data ++ natDigits offY

/-- `render_image`: base64-encode the pixel buffer, emit the leading control
sequence with all placement parameters and the first ≤4096-character slice,
wrap every further slice in a continuation sequence, terminate with an
empty-payload `m=0` sequence, and move the cursor forward two cells.
`cell_height` comes from the global window handle (`PLS.window`), which is
outside the excerpted sources and is passed as a parameter. -/
def renderImage (rgbaData : List Nat) (size cellHeight : Nat) : List Char :=
  let offY := if cellHeight > size then (cellHeight - size) / 2 else 0
  let encoded := base64Encode rgbaData
  ESC :: '_' :: 'G' :: headerParams size offY
    ++ ';' :: encoded.take CHUNK_SIZE
    ++ ESC :: '\\' :: contChunks (encoded.drop CHUNK_SIZE)
    ++ ESC :: '_' :: 'G' :: 'm' :: '=' :: '0' :: ';' :: ESC :: '\\'
    :: ESC :: '[' :: '2' :: 'C' :: []

/-- Search for the string terminator `\x1b\\`, mirroring the non-greedy
regex body `.*?\x1b\\`: the match ends at the first terminator, and the
regex's `.` does not cross a newline.  Returns the text after the
terminator. -/
def findST : List Char → Option (List Char)
  | [] => Option.none
  | [_] => Option.none
  | c1 :: c2 :: rest =>
    if c1 = ESC ∧ c2 = '\\' then some rest
    else if c1 = '\n' then Option.none
    else findST (c2 :: rest)

/-- A found terminator leaves a strictly shorter remainder. -/
theorem findST_length :
    ∀ l r, findST l = some r → r.length + 2 ≤ l.length := by
  intro l
  induction l with
  | nil => intro r hr; simp [findST] at hr
  | cons c1 l ih =>
    cases l with
    | nil => intro r hr; simp [findST] at hr
    | cons c2 rest =>
      intro r hr
      simp only [findST] at hr
      split at hr
      · injection hr with h
        subst h
        simp
      · split at hr
        · exact absurd hr (by simp)
        · have := ih r hr
          simp at this ⊢
          omega

/-- `strip_image`: `KITTY_IMAGE.replace_all(text, "")` with the pattern
`\x1b_G.*?\x1b\\` — remove every non-greedy match of the graphics envelope,
scanning left to right; an opener without a terminator is kept and scanning
resumes after its first character; text too short to open an envelope is
untouched. -/
def stripImage : List Char → List Char
  | c1 :: c2 :: c3 :: rest =>
    if c1 = ESC ∧ c2 = '_' ∧ c3 = 'G' then
      match _h : findST rest with
      | some r => stripImage r
      | Option.none => c1 :: stripImage (c2 :: c3 :: rest)
    else c1 :: stripImage (c2 :: c3 :: rest)
  | l => l
termination_by l => l.length
decreasing_by
  · have := findST_length rest r _h
    simp
    omega
  · simp
  · simp


/-! ## Analysis helpers for the encoded output

These are not source functions: they extract the structure of an encoded
output so that the chunking contract can be stated about the produced text
itself. -/

/-- Split a text at the first occurrence of a character: the part before it
and the part after it. -/
def splitAtChar (t : Char) : List Char → Option (List Char × List Char)
  | [] => Option.none
  | c :: rest =>
    if c = t then some ([], rest)
    else (splitAtChar t rest).map (fun p => (c :: p.1, p.2))

/-- Split a text at the first string terminator `\x1b\\`: the part before
it and the part after it. -/
def splitAtST : List Char → Option (List Char × List Char)
  | [] => Option.none
  | [_] => Option.none
  | c1 :: c2 :: rest =>
    if c1 = ESC ∧ c2 = '\\' then some ([], rest)
    else (splitAtST (c2 :: rest)).map (fun p => (c1 :: p.1, p.2))

/-- A successful character split leaves a strictly shorter remainder. -/
theorem splitAtChar_length :
    ∀ t l p, splitAtChar t l = some p → p.2.length < l.length := by
  intro t l
  induction l with
  | nil => intro p hp; simp [splitAtChar] at hp
  | cons c rest ih =>
    intro p hp
    simp only [splitAtChar] at hp
    split at hp
    · injection hp with h
      subst h
      simp
    · cases hq : splitAtChar t rest with
      | none => rw [hq] at hp; simp at hp
      | some q =>
        rw [hq] at hp
        simp at hp
        have := ih q hq
        subst hp
        simp
        omega

/-- A successful terminator split leaves a strictly shorter remainder. -/
theorem splitAtST_length :
    ∀ l p, splitAtST l = some p → p.2.length < l.length := by
  intro l
  induction l with
  | nil => intro p hp; simp [splitAtST] at hp
  | cons c1 l ih =>
    cases l with
    | nil => intro p hp; simp [splitAtST] at hp
    | cons c2 rest =>
      intro p hp
      simp only [splitAtST] at hp
      split at hp
      · injection hp with h
        subst h
        simp
        omega
      · cases hq : splitAtST (c2 :: rest) with
        | none => rw [hq] at hp; simp at hp
        | some q =>
          rw [hq] at hp
          simp at hp
          have := ih q hq
          subst hp
          simp at this ⊢
          omega


/-- Extract the graphics control sequences of a text: every
`\x1b_G<params>;<payload>\x1b\\` envelope, as a (params, payload) pair, in
order.  Text outside envelopes and malformed openers are skipped. -/
def extractEnvelopes : List Char → List (List Char × List Char)
  | c1 :: c2 :: c3 :: rest =>
    if c1 = ESC ∧ c2 = '_' ∧ c3 = 'G' then
      match h1 : splitAtChar ';' rest with
      | some pr =>
        (match h2 : splitAtST pr.2 with
         | some py => (pr.1, py.1) :: extractEnvelopes py.2
         | Option.none => extractEnvelopes (c2 :: c3 :: rest))
      | Option.none => extractEnvelopes (c2 :: c3 :: rest)
    else extractEnvelopes (c2 :: c3 :: rest)
  | _ => []
termination_by l => l.length
decreasing_by
  · have ha := splitAtChar_length ';' rest pr h1
    have hb := splitAtST_length pr.2 py h2
    simp at ha hb ⊢
    omega
  · simp
  · simp
  · simp

/-- The more-data flag of a parameter list: the value following the first
`m=` key. -/
def moreFlag : List Char → Option Bool
  | 'm' :: '=' :: '1' :: _ => some true
  | 'm' :: '=' :: '0' :: _ => some false
  | _ :: rest => moreFlag rest
  | [] => Option.none

/-- The ≤4096-character payload slices of a text, in order. -/
def chunksOf (l : List Char) : List (List Char) :=
  if l = [] then [] else l.take CHUNK_SIZE :: chunksOf (l.drop CHUNK_SIZE)
termination_by l.length
decreasing_by
  simp only [List.length_drop, CHUNK_SIZE]
  have : 0 < l.length := List.length_pos.mpr (by assumption)
  omega

/-! ## Directory listing (src/models/pls.rs, `Pls::get_contents` /
`Node::new`) -/

/-- The panic message of `Option::unwrap` / `Result::unwrap`. -/
def unwrapPanicMsg : String := "called `unwrap()` on an `Err` value"

/-- `Node::new`: derive the display name from the path's final segment and
stat the path without following symlinks.  The stat result is a
collaborator outside the sources (the filesystem), passed as a lookup; the
source calls `.unwrap()` on it, so an unreadable stat is a panic, modelled
as an error. -/
def Node.new (stat : String → Option Meta) (path : String) :
    Except String Node :=
  match stat path with
  | some m =>
    .ok (.mk ⟨pathFileName path⟩ path (some m) m.typ Appearance.normal []
      Option.none [])
  | Option.none => .error unwrapPanicMsg

/-- `Pls::get_node`: name filters (`--only` / `--exclude`, compiled regexes
modelled as predicates on the name), then `Node::new`, then the type filter,
spec matching (the configuration's pattern matching, modelled as a lookup
from name to matched specs) and the visibility check (`is_visible`,
modelled as a predicate).  Returns `none` for a filtered-out node and
propagates the `Node::new` panic. -/
def getNode (only exclude : Option (String → Bool)) (typs : List Typ)
    (specsFor : String → List Spec) (visible : Node → Bool)
    (stat : String → Option Meta) (entryName : String) :
    Except String (Option Node) := do
  let include_ := match only with
    | some pat => pat entryName
    | Option.none => true
  if !include_ then
    return Option.none
  let exclude_ := match exclude with
    | some pat => pat entryName
    | Option.none => false
  if exclude_ then
    return Option.none
  let node ← Node.new stat entryName
  if !(typs.contains node.typ) then
    return Option.none
  let node := match node with
    | .mk n p m t a _ c ch => Node.mk n p m t a (specsFor n) c ch
  if !(visible node) then
    return Option.none
  return some node

/-- `Pls::get_contents` for a directory: each raw entry of `read_dir` is
either an iteration error (`entry.ok()` is `None`) or a name;
`filter_map(|entry| entry.ok().and_then(|entry| self.get_node(..)))` keeps
the nodes of the entries that survive, dropping iteration errors, and
propagates a `get_node` panic. -/
def getContents (only exclude : Option (String → Bool)) (typs : List Typ)
    (specsFor : String → List Spec) (visible : Node → Bool)
    (stat : String → Option Meta) (entries : List (Option String)) :
    Except String (List Node) :=
  match entries with
  | [] => .ok []
  | Option.none :: rest =>
    getContents only exclude typs specsFor visible stat rest
  | some nm :: rest => do
    let n? ← getNode only exclude typs specsFor visible stat nm
    let ns ← getContents only exclude typs specsFor visible stat rest
    match n? with
    | some n => .ok (n :: ns)
    | Option.none => .ok ns

/-! ## Test fixtures

Concrete nodes shared by the concrete evaluations below. -/

/-- Metadata fixture: inode 1, 1 link, size 10. -/
def metaSmall : Meta :=
  ⟨1, 1, 1, 0, 0, 10, 1, Option.none, Option.none, some 5, Option.none,
   Typ.file⟩

/-- Metadata fixture: inode 2, 2 links, size 20. -/
def metaBig : Meta :=
  ⟨1, 2, 2, 0, 0, 20, 2, Option.none, Option.none, some 6, Option.none,
   Typ.file⟩

/-- Owner cache fixture. -/
def omFix : OwnerMan := ⟨fun _ => "", fun _ => ""⟩

/-- Node fixture `a.txt` with readable metadata of size 20. -/
def nodeA : Node :=
  .mk "a.txt" "a.txt" (some metaBig) Typ.file Appearance.normal []
    Option.none []

/-- Node fixture `b.txt` with readable metadata of size 10. -/
def nodeB : Node :=
  .mk "b.txt" "b.txt" (some metaSmall) Typ.file Appearance.normal []
    Option.none []

/-- Node fixture `c.txt` whose metadata is unreadable. -/
def nodeNoMeta : Node :=
  .mk "c.txt" "c.txt" Option.none Typ.file Appearance.normal []
    Option.none []

/-! ## C1 — reversed fields against their natural fields -/

/-- C1.  The claim "for every natural sort field F with reversed variant F_,
`compare(F_, a, b)` equals the reverse of `compare(F, a, b)`" fails in the
source for the inode and link-count pairs: `Inode_` and `Nlinks_` carry the
clap names `inode_` / `nlinks_`, whose trimmed forms `inode` / `nlinks` do
not parse back to the natural variants (`ino` / `nlink`), so `simplify`
falls back to the `none` sentinel and `compare` reaches the `unreachable!`
arm of `compare_time` and panics instead of reversing the natural verdict.
Fields whose reversed name is exactly the natural name plus `_` (here
`size_`) do satisfy the reversal equation. -/
theorem c1_reversal_broken_for_inode_nlinks :
    SortField.compare SortField.inode_ nodeA nodeB omFix
        = Except.error cmpTimeUnreachableMsg
    ∧ SortField.compare SortField.ino nodeA nodeB omFix = Except.ok .gt
    ∧ SortField.compare SortField.inode_ nodeA nodeB omFix
        ≠ Except.map Ordering.swap
            (SortField.compare SortField.ino nodeA nodeB omFix)
    ∧ SortField.compare SortField.nlinks_ nodeA nodeB omFix
        ≠ Except.map Ordering.swap
            (SortField.compare SortField.nlink nodeA nodeB omFix)
    ∧ SortField.compare SortField.size_ nodeA nodeB omFix
        = Except.map Ordering.swap
            (SortField.compare SortField.size nodeA nodeB omFix) := by
  refine ⟨by decide, by decide, by decide, by decide, by decide⟩

/-! ## C2 — metadata fields with unreadable metadata -/

/-- C2.  The claim "for every metadata-dependent sort field and node pair
with unreadable metadata, `compare` yields no verdict at the metadata stage
and returns `Equal`, never aborting" fails in the source: when
`compare_meta` yields no verdict the chain calls `compare_time` with the
metadata field, whose catch-all arm is `unreachable!`, so the comparison
panics for all seven metadata fields instead of falling through to
`Equal`. -/
theorem c2_metadata_unreadable_panics :
    SortField.compare SortField.dev nodeNoMeta nodeB omFix
        = Except.error cmpTimeUnreachableMsg
    ∧ SortField.compare SortField.ino nodeNoMeta nodeB omFix
        = Except.error cmpTimeUnreachableMsg
    ∧ SortField.compare SortField.nlink nodeNoMeta nodeB omFix
        = Except.error cmpTimeUnreachableMsg
    ∧ SortField.compare SortField.uid nodeNoMeta nodeB omFix
        = Except.error cmpTimeUnreachableMsg
    ∧ SortField.compare SortField.gid nodeNoMeta nodeB omFix
        = Except.error cmpTimeUnreachableMsg
    ∧ SortField.compare SortField.size nodeNoMeta nodeB omFix
        = Except.error cmpTimeUnreachableMsg
    ∧ SortField.compare SortField.blocks nodeNoMeta nodeB omFix
        = Except.error cmpTimeUnreachableMsg := by
  refine ⟨by decide, by decide, by decide, by decide, by decide, by decide,
    by decide⟩

/-! ## C5 — multi-key sort composition -/

/-- C5.  Multi-key sorting applies one full stable pass per field in
reverse order of the requested list, so the head of the list is the pass
applied last (the dominant key); on the two example nodes, sorting by
`[Name]` puts `a.txt` first and sorting by `[Size_]` (descending size)
also puts `a.txt` (size 20) first. -/
theorem c5_multi_key_sort :
    (∀ (f : SortField) (fs : List SortField) (ns : List Node)
        (om : OwnerMan),
      multiKeySort (f :: fs) ns om
        = multiKeySort fs ns om >>= sortByField f om)
    ∧ Except.map (List.map Node.name)
        (multiKeySort [SortField.name] [nodeB, nodeA] omFix)
        = Except.ok ["a.txt", "b.txt"]
    ∧ Except.map (List.map Node.name)
        (multiKeySort [SortField.size_] [nodeB, nodeA] omFix)
        = Except.ok ["a.txt", "b.txt"] := by
  refine ⟨?_, by decide, by decide⟩
  intro f fs ns om
  unfold multiKeySort
  rw [List.reverse_cons, List.foldlM_append]
  simp

/-! ## C7 — field-list cleaning -/

/-- The claim's reading of `clean`, stated independently: keep only the
fields after the last `none` sentinel (each sentinel discards everything
accumulated before and including it), then walk in input order keeping a
field only when it has not been kept already. -/
def cleanSpecSide (input : List SortField) : List SortField :=
  ((input.reverse.takeWhile (fun f => f ≠ SortField.none)).reverse).foldl
    (fun acc f => if f ∈ acc then acc else acc ++ [f]) []

/-- The reset phase equals "suffix after the last `none`". -/
theorem cleanPhase1_eq (l : List SortField) :
    SortField.cleanPhase1 l
      = (l.reverse.takeWhile (fun f => f ≠ SortField.none)).reverse := by
  induction l using List.reverseRecOn with
  | nil => rfl
  | append_singleton xs x ih =>
    unfold SortField.cleanPhase1 at ih ⊢
    rw [List.foldl_append]
    simp only [List.foldl_cons, List.foldl_nil, List.reverse_append,
      List.reverse_cons, List.reverse_nil, List.nil_append,
      List.cons_append, List.takeWhile_cons]
    by_cases hx : x = SortField.none
    · simp [hx]
    · simp only [ne_eq, decide_not] at ih ⊢
      simp [hx, ih]

/-- The seen-set dedup recursion equals the first-occurrence fold, whenever
the seen set and the accumulator hold the same fields. -/
theorem dedupKeepFirst_foldl :
    ∀ (l seen acc : List SortField),
      (∀ x, x ∈ seen ↔ x ∈ acc) →
      l.foldl (fun acc f => if f ∈ acc then acc else acc ++ [f]) acc
        = acc ++ SortField.dedupKeepFirst l seen := by
  intro l
  induction l with
  | nil =>
    intro seen acc h
    simp [SortField.dedupKeepFirst]
  | cons f rest ih =>
    intro seen acc h
    simp only [List.foldl_cons, SortField.dedupKeepFirst]
    by_cases hf : f ∈ seen
    · rw [if_pos ((h f).mp hf), if_pos hf]
      exact ih seen acc h
    · have hf' : f ∉ acc := fun hc => hf ((h f).mpr hc)
      rw [if_neg hf', if_neg hf]
      rw [ih (f :: seen) (acc ++ [f]) ?_]
      · simp
      · intro x
        simp only [List.mem_cons, List.mem_append, List.mem_singleton, h x]
        tauto

/-- C7.  `clean` discards everything before and including each `none`
sentinel (keeping the suffix after the last sentinel) and then keeps only
the first surviving occurrence of each distinct field, in input order. -/
theorem c7_clean_resets_then_dedups (input : List SortField) :
    SortField.clean input = cleanSpecSide input := by
  unfold SortField.clean cleanSpecSide
  rw [cleanPhase1_eq, dedupKeepFirst_foldl _ [] [] (by simp)]
  simp

/-! ## C6 — collapse resolution -/

/-- Attaching children never changes a node's name. -/
theorem tree_parent_name (n : Node) (ch : List Node) :
    (Node.tree_parent n ch).name = n.name := by
  cases n
  rfl

/-- Computing the collapse key never changes a node's name. -/
theorem find_collapse_name (n : Node) :
    (Node.find_collapse n).name = n.name := by
  cases n
  rfl

/-- Tree building maps each root to a node of the same name: the top level
of the forest is exactly the root list. -/
theorem makeTreeF_names :
    ∀ (fuel : Nat) (ns : List Node) (m : ChildMap),
      ((makeTreeF fuel ns m).1).map Node.name = ns.map Node.name := by
  intro fuel
  induction fuel with
  | zero =>
    intro ns m
    cases ns <;> simp [makeTreeF]
  | succ fuel ih =>
    intro ns m
    cases ns with
    | nil => simp [makeTreeF]
    | cons n ns =>
      simp only [makeTreeF]
      cases h : mapRemove n.name m with
      | none => simp [h, tree_parent_name, ih]
      | some p => simp [h, tree_parent_name, ih]

/-- The root-collection fold keeps exactly the nodes without a collapse
key, in order. -/
theorem partitionRoots :
    ∀ (l : List Node) (acc : List Node × ChildMap),
      (l.foldl
        (fun (acc : List Node × ChildMap) node =>
          match node.collapseName with
          | some collapse => (acc.1, mapPush acc.2 collapse node.tree_child)
          | Option.none => (acc.1 ++ [node], acc.2)) acc).1
        = acc.1 ++ l.filter (fun n => n.collapseName = Option.none) := by
  intro l
  induction l with
  | nil =>
    intro acc
    simp
  | cons n rest ih =>
    intro acc
    simp only [List.foldl_cons, List.filter_cons]
    cases h : n.collapseName with
    | none => simp [h, ih]
    | some c => simp [h, ih]

/-- Cargo.toml spec fixture (conf.rs default: no collapse rule). -/
def cargoTomlSpec : Spec :=
  ⟨"Cargo.toml pattern", Option.none, some "package", 0, Option.none⟩

/-- Cargo.lock spec fixture (conf.rs default: importance −1 and a
name-collapse rule targeting Cargo.toml). -/
def cargoLockSpec : Spec :=
  ⟨"Cargo.lock pattern", Option.none, some "lock", -1,
   some (Collapse.name "Cargo.toml")⟩

/-- Node fixture for Cargo.toml, matched with its spec. -/
def tomlNode : Node :=
  .mk "Cargo.toml" "Cargo.toml" Option.none Typ.file Appearance.normal
    [cargoTomlSpec] Option.none []

/-- Node fixture for Cargo.lock, matched with its spec. -/
def lockNode : Node :=
  .mk "Cargo.lock" "Cargo.lock" Option.none Typ.file Appearance.normal
    [cargoLockSpec] Option.none []

/-- C6.  On `[Cargo.toml, Cargo.lock]`, where Cargo.lock's spec collapses
it into Cargo.toml by name, resolution yields the single top-level node
Cargo.toml with appearance `TreeParent` and one `TreeChild` Cargo.lock; a
node carrying a collapse key — whether or not its target exists among the
roots — never appears at the top level (concretely, a lone Cargo.lock
resolves to an empty forest), since the top level consists exactly of the
nodes without a collapse key. -/
theorem c6_collapse_resolution :
    resolveCollapses [tomlNode, lockNode]
      = [Node.mk "Cargo.toml" "Cargo.toml" Option.none Typ.file
          Appearance.treeParent [cargoTomlSpec] Option.none
          [Node.mk "Cargo.lock" "Cargo.lock" Option.none Typ.file
            Appearance.treeChild [cargoLockSpec] (some "Cargo.toml") []]]
    ∧ resolveCollapses [lockNode] = []
    ∧ ∀ (ns : List Node),
        (resolveCollapses ns).map Node.name
          = ((ns.map Node.find_collapse).filter
              (fun n => n.collapseName = Option.none)).map Node.name := by
  refine ⟨by rfl, by rfl, ?_⟩
  intro ns
  unfold resolveCollapses
  rw [makeTreeF_names, partitionRoots]
  simp

/-! ## C8 / C10 — table column widths -/

/-- `mapM` over `Option` succeeds pointwise. -/
theorem optionMapM_map {α β : Type} (f : α → Option β) (g : α → β) :
    ∀ l : List α, (∀ a ∈ l, f a = some (g a)) → l.mapM f = some (l.map g) := by
  intro l
  induction l with
  | nil => intro h; rfl
  | cons a rest ih =>
    intro h
    rw [List.mapM_cons, h a (by simp), ih (fun x hx => h x (by simp [hx]))]
    rfl

/-- `mapM` over `Option` fails when any element fails. -/
theorem optionMapM_none {α β : Type} (f : α → Option β) :
    ∀ (l : List α) (a : α), a ∈ l → f a = Option.none →
      l.mapM f = Option.none := by
  intro l
  induction l with
  | nil => intro a ha; simp at ha
  | cons b rest ih =>
    intro a ha hfa
    rw [List.mapM_cons]
    rcases List.mem_cons.mp ha with h | h
    · subst h
      rw [hfa]
      rfl
    · cases hfb : f b with
      | none => rfl
      | some v =>
        show (List.mapM f rest >>= fun xs => pure (v :: xs)) = Option.none
        rw [ih a h hfa]
        rfl

/-- With at least one row, `max_widths` always succeeds, and each column's
width is: none for the last column; the max over the header and row #1 only
for a uniformly wide column; the max over the header and every row
otherwise. -/
theorem maxWidths_cons (uw : DetailField → Bool) (nameOf : DetailField → String)
    (len : String → Nat) (header : Bool) (ds : List DetailField) (e : Entry)
    (rest : List Entry) :
    maxWidths uw nameOf len header ds (e :: rest)
      = some (ds.enum.map (fun p =>
          if p.1 = ds.length - 1 then Option.none
          else if uw p.2 then
            (([e].filterMap (fun x => (entryGet x p.2).map len))
              ++ [if header then len (nameOf p.2) else 0]).max?
          else
            (((e :: rest).filterMap (fun x => (entryGet x p.2).map len))
              ++ [if header then len (nameOf p.2) else 0]).max?)) := by
  unfold maxWidths
  apply optionMapM_map
  intro p hp
  by_cases hl : p.1 = ds.length - 1
  · simp [hl]
  · by_cases hu : uw p.2
    · simp [hl, hu]
    · simp [hl, hu]

/-- Uniform-width predicate fixture: only the type column is declared
uniformly wide. -/
def uwTyp : DetailField → Bool := fun d => d == DetailField.typ

/-- Header-name fixture. -/
def nmFix : DetailField → String := fun _ => "col"

/-- Row fixture #1: short type cell. -/
def entryR1 : Entry := [(DetailField.typ, "f"), (DetailField.name, "a.txt")]

/-- Row fixture #2: type cell wider than row #1's and the header's. -/
def entryR2 : Entry :=
  [(DetailField.typ, "wide-cell"), (DetailField.name, "b.txt")]

/-- C8 counterexample.  The claim as stated quantifies over *every* table,
but on a table with no rows whose columns include a non-final uniformly
wide column, `max_widths` slices `entries[0..1]` out of an empty vector
and panics, so no column width (in particular no `None` for the last
column) is ever computed. -/
theorem c8_counterexample :
    maxWidths uwTyp nmFix String.length true
      [DetailField.typ, DetailField.name] [] = Option.none := by
  decide

/-- C8 (amended: for every table with at least one row).  The width of the
last requested column is `None`; a non-last uniformly wide column scans
only the header (when enabled) and row #1, so its width is invariant under
every change to the rows after row #1; every other non-last column scans
the header and every row. -/
theorem c8_table_widths :
    (∀ (uw : DetailField → Bool) (nameOf : DetailField → String)
        (len : String → Nat) (header : Bool) (ds : List DetailField)
        (e : Entry) (rest : List Entry),
      maxWidths uw nameOf len header ds (e :: rest)
        = some (ds.enum.map (fun p =>
            if p.1 = ds.length - 1 then Option.none
            else if uw p.2 then
              (([e].filterMap (fun x => (entryGet x p.2).map len))
                ++ [if header then len (nameOf p.2) else 0]).max?
            else
              (((e :: rest).filterMap (fun x => (entryGet x p.2).map len))
                ++ [if header then len (nameOf p.2) else 0]).max?)))
    ∧ (∀ (uw : DetailField → Bool) (nameOf : DetailField → String)
        (len : String → Nat) (header : Bool) (ds : List DetailField)
        (e : Entry) (rest rest' : List Entry) (i : Nat) (det : DetailField),
      ds[i]? = some det → uw det = true → i ≠ ds.length - 1 →
      (maxWidths uw nameOf len header ds (e :: rest)).bind
          (fun ws => ws[i]?)
        = (maxWidths uw nameOf len header ds (e :: rest')).bind
            (fun ws => ws[i]?)) := by
  refine ⟨fun uw nameOf len header ds e rest => maxWidths_cons _ _ _ _ _ _ _,
    ?_⟩
  intro uw nameOf len header ds e rest rest' i det hget huw hlast
  rw [maxWidths_cons, maxWidths_cons]
  simp only [Option.some_bind, List.getElem?_map, List.getElem?_enum, hget,
    Option.map_some']
  simp [hlast, huw]

/-- C8 witness: on the two-column table `[typ, name]` with uniformly wide
`typ`, adding a second row whose `typ` cell is wider than row #1's and the
header's leaves the computed `typ` width unchanged. -/
theorem c8_table_widths_witness :
    ([DetailField.typ, DetailField.name][0]? = some DetailField.typ)
    ∧ (uwTyp DetailField.typ = true)
    ∧ (0 ≠ [DetailField.typ, DetailField.name].length - 1)
    ∧ ((maxWidths uwTyp nmFix String.length true
          [DetailField.typ, DetailField.name] [entryR1]).bind
            (fun ws => ws[0]?)
        = (maxWidths uwTyp nmFix String.length true
            [DetailField.typ, DetailField.name] [entryR1, entryR2]).bind
              (fun ws => ws[0]?)) :=
  ⟨by decide, by decide, by decide,
   c8_table_widths.2 uwTyp nmFix String.length true
     [DetailField.typ, DetailField.name] entryR1 [] [entryR2] 0
     DetailField.typ (by decide) (by decide) (by decide)⟩

/-- C10.  With an empty row list, any non-final uniformly wide column makes
the width computation slice `entries[0..1]` out of an empty vector, so the
computation (and hence rendering, which starts with it) aborts; with at
least one row, the width computation always succeeds. -/
theorem c10_empty_rows_panic :
    (∀ (uw : DetailField → Bool) (nameOf : DetailField → String)
        (len : String → Nat) (header : Bool) (ds : List DetailField)
        (i : Nat) (det : DetailField),
      ds[i]? = some det → i ≠ ds.length - 1 → uw det = true →
      maxWidths uw nameOf len header ds [] = Option.none)
    ∧ (∀ (uw : DetailField → Bool) (nameOf : DetailField → String)
        (len : String → Nat) (header : Bool) (ds : List DetailField)
        (e : Entry) (rest : List Entry),
      (maxWidths uw nameOf len header ds (e :: rest)).isSome = true) := by
  constructor
  · intro uw nameOf len header ds i det hget hlast huw
    unfold maxWidths
    apply optionMapM_none _ _ (i, det)
    · exact List.mk_mem_enum_iff_getElem?.mpr hget
    · simp only [hlast, if_false, huw, if_true, List.length_nil]
      rfl
  · intro uw nameOf len header ds e rest
    rw [maxWidths_cons]
    rfl

/-- C10 witness: the concrete two-column table with uniformly wide `typ`
panics on an empty row list and succeeds on a singleton row list. -/
theorem c10_empty_rows_panic_witness :
    ([DetailField.typ, DetailField.name][0]? = some DetailField.typ)
    ∧ (0 ≠ [DetailField.typ, DetailField.name].length - 1)
    ∧ (uwTyp DetailField.typ = true)
    ∧ (maxWidths uwTyp nmFix String.length true
        [DetailField.typ, DetailField.name] [] = Option.none)
    ∧ ((maxWidths uwTyp nmFix String.length true
        [DetailField.typ, DetailField.name] [entryR1]).isSome = true) :=
  ⟨by decide, by decide, by decide,
   c10_empty_rows_panic.1 uwTyp nmFix String.length true
     [DetailField.typ, DetailField.name] 0 DetailField.typ (by decide)
     (by decide) (by decide),
   c10_empty_rows_panic.2 uwTyp nmFix String.length true
     [DetailField.typ, DetailField.name] entryR1 []⟩

/-! ## C3 / C4 — graphics encoder lemmas -/

/-- A character that cannot interfere with envelope matching or extraction:
not the escape character, not a newline, not the payload separator. -/
def plainChar (c : Char) : Prop := c ≠ ESC ∧ c ≠ '\n' ∧ c ≠ ';'

instance (c : Char) : Decidable (plainChar c) := by
  unfold plainChar
  infer_instance

/-- Every 6-bit group maps into the base64 alphabet. -/
theorem b64Char_mem (n : Nat) : b64Char n ∈ b64Table := by
  unfold b64Char
  rw [List.getD_eq_getElem?_getD]
  cases h : b64Table[n]? with
  | none =>
    simp only [Option.getD_none]
    decide
  | some c =>
    simp only [Option.getD_some]
    exact List.getElem?_mem h

/-- Every character of a base64 encoding is in the alphabet or padding. -/
theorem base64_chars :
    ∀ (l : List Nat) (c : Char), c ∈ base64Encode l →
      c ∈ b64Table ∨ c = '=' := by
  intro l
  induction l using base64Encode.induct with
  | case1 =>
    intro c hc
    simp [base64Encode] at hc
  | case2 a =>
    intro c hc
    simp only [base64Encode, List.mem_cons, List.not_mem_nil, or_false] at hc
    rcases hc with h | h | h | h
    all_goals first
      | (subst h; exact Or.inl (b64Char_mem _))
      | (subst h; exact Or.inr rfl)
  | case3 a b =>
    intro c hc
    simp only [base64Encode, List.mem_cons, List.not_mem_nil, or_false] at hc
    rcases hc with h | h | h | h
    all_goals first
      | (subst h; exact Or.inl (b64Char_mem _))
      | (subst h; exact Or.inr rfl)
  | case4 a b cc rest ih =>
    intro c hc
    simp only [base64Encode, List.mem_cons] at hc
    rcases hc with h | h | h | h | h
    · subst h; exact Or.inl (b64Char_mem _)
    · subst h; exact Or.inl (b64Char_mem _)
    · subst h; exact Or.inl (b64Char_mem _)
    · subst h; exact Or.inl (b64Char_mem _)
    · exact ih c h

/-- Base64 output consists of plain characters. -/
theorem base64_plain (l : List Nat) (c : Char) (hc : c ∈ base64Encode l) :
    plainChar c := by
  rcases base64_chars l c hc with h | h
  · revert h
    have : ∀ c ∈ b64Table, plainChar c := by decide
    exact this c
  · subst h
    decide

/-- Every decimal digit character is one of `0`–`9`. -/
theorem natDigits_digits :
    ∀ (n : Nat) (c : Char), c ∈ natDigits n → c ∈ "0123456789".data := by
  intro n
  induction n using natDigits.induct with
  | case1 n h =>
    intro c hc
    rw [natDigits, dif_pos h] at hc
    simp only [List.mem_singleton] at hc
    subst hc
    revert h
    have : ∀ m, m < 10 → Nat.digitChar m ∈ "0123456789".data := by decide
    exact this n
  | case2 n h ih =>
    intro c hc
    rw [natDigits, dif_neg h] at hc
    rcases List.mem_append.mp hc with hm | hm
    · exact ih c hm
    · simp only [List.mem_singleton] at hm
      subst hm
      have h10 : n % 10 < 10 := Nat.mod_lt _ (by omega)
      revert h10
      have : ∀ m, m < 10 → Nat.digitChar m ∈ "0123456789".data := by decide
      exact this (n % 10)

/-- Decimal digits are plain characters. -/
theorem natDigits_plain (n : Nat) (c : Char) (hc : c ∈ natDigits n) :
    plainChar c := by
  have := natDigits_digits n c hc
  revert this
  have h : ∀ c ∈ "0123456789".data, plainChar c := by decide
  exact h c

/-- Every character of the leading parameter list is plain except the `;`
separator, which it does not contain: the fixed text and the three decimal
parameters are all plain. -/
theorem headerParams_plain (size offY : Nat) (c : Char)
    (hc : c ∈ headerParams size offY) : plainChar c := by
  unfold headerParams at hc
  have hfix1 : ∀ x ∈ "f=32,t=d,a=T,C=1,m=1,s=".data, plainChar x := by decide
  have hfix2 : ∀ x ∈ ",v=".data, plainChar x := by decide
  have hfix3 : ∀ x ∈ ",Y=".data, plainChar x := by decide
  rcases List.mem_append.mp hc with h | h
  · rcases List.mem_append.mp h with h | h
    · rcases List.mem_append.mp h with h | h
      · rcases List.mem_append.mp h with h | h
        · rcases List.mem_append.mp h with h | h
          · exact hfix1 c h
          · exact natDigits_plain _ c h
        · exact hfix2 c h
      · exact natDigits_plain _ c h
    · exact hfix3 c h
  · exact natDigits_plain _ c h

/-- Stripping leaves an empty text empty. -/
theorem stripImage_nil : stripImage [] = [] := by
  simp [stripImage]

/-- A non-escape head character survives stripping, which continues on the
tail. -/
theorem stripImage_cons_ne (c : Char) (t : List Char) (h : c ≠ ESC) :
    stripImage (c :: t) = c :: stripImage t := by
  match t with
  | [] => simp [stripImage]
  | [x] => simp [stripImage]
  | x :: y :: t' =>
    simp only [stripImage]
    rw [if_neg (by simp [h])]

/-- Text without escape characters passes through the stripper untouched,
which continues on whatever follows it. -/
theorem stripImage_clean :
    ∀ (l1 l2 : List Char), (∀ c ∈ l1, c ≠ ESC) →
      stripImage (l1 ++ l2) = l1 ++ stripImage l2 := by
  intro l1
  induction l1 with
  | nil => intro l2 h; simp
  | cons c t ih =>
    intro l2 h
    rw [List.cons_append, stripImage_cons_ne c _ (h c (by simp)),
      ih l2 (fun x hx => h x (by simp [hx]))]
    rfl

/-- Text without escape characters passes through the stripper untouched. -/
theorem stripImage_clean_id (l : List Char) (h : ∀ c ∈ l, c ≠ ESC) :
    stripImage l = l := by
  have := stripImage_clean l [] h
  simpa [stripImage_nil] using this

/-- One scanning step of the terminator search. -/
theorem findST_cons (c1 c2 : Char) (t : List Char)
    (h1 : ¬(c1 = ESC ∧ c2 = '\\')) (h2 : c1 ≠ '\n') :
    findST (c1 :: c2 :: t) = findST (c2 :: t) := by
  simp only [findST]
  rw [if_neg (by simpa using h1), if_neg h2]

/-- The terminator search over a body free of escapes and newlines finds
the appended terminator and returns the remainder after it. -/
theorem findST_append :
    ∀ (body rest : List Char), (∀ c ∈ body, c ≠ ESC ∧ c ≠ '\n') →
      findST (body ++ ESC :: '\\' :: rest) = some rest := by
  intro body
  induction body with
  | nil =>
    intro rest h
    simp [findST, ESC]
  | cons c t ih =>
    intro rest h
    have hc := h c (by simp)
    cases t with
    | nil =>
      show findST (c :: ESC :: '\\' :: rest) = some rest
      rw [findST_cons c ESC _ (fun hh => hc.1 hh.1) hc.2]
      simp [findST]
    | cons d t' =>
      rw [List.cons_append, List.cons_append,
        findST_cons c d _ (fun hh => hc.1 hh.1) hc.2, ← List.cons_append]
      exact ih rest (fun x hx => h x (by simp [List.mem_cons] at hx ⊢; tauto))

/-- Stripping removes a whole well-formed envelope and continues after its
terminator. -/
theorem stripImage_env (body rest : List Char)
    (h : ∀ c ∈ body, c ≠ ESC ∧ c ≠ '\n') :
    stripImage (ESC :: '_' :: 'G' :: (body ++ ESC :: '\\' :: rest))
      = stripImage rest := by
  have hf : findST (body ++ ESC :: '\\' :: rest) = some rest :=
    findST_append body rest h
  simp only [stripImage]
  rw [if_pos (show True ∧ True ∧ True from ⟨trivial, trivial, trivial⟩)]
  split
  · rename_i r hr
    rw [hf] at hr
    cases hr
    rfl
  · rename_i hr
    rw [hf] at hr
    cases hr

/-- Envelope removal in the shape produced by the encoder: parameters,
the `;` separator, a payload slice and the terminator. -/
theorem stripImage_envHT (A B rest : List Char)
    (hA : ∀ c ∈ A, c ≠ ESC ∧ c ≠ '\n') (hB : ∀ c ∈ B, c ≠ ESC ∧ c ≠ '\n') :
    stripImage (ESC :: '_' :: 'G' :: (A ++ ';' :: (B ++ ESC :: '\\' :: rest)))
      = stripImage rest := by
  have h : ∀ c ∈ A ++ ';' :: B, c ≠ ESC ∧ c ≠ '\n' := by
    intro c hc
    rcases List.mem_append.mp hc with h | h
    · exact hA c h
    · rcases List.mem_cons.mp h with h | h
      · subst h; exact ⟨by decide, by decide⟩
      · exact hB c h
  have := stripImage_env (A ++ ';' :: B) rest h
  simpa [List.append_assoc] using this

/-- The terminating empty-payload `m=0` sequence strips away. -/
theorem stripImage_final (rest : List Char) :
    stripImage (ESC :: '_' :: 'G' :: 'm' :: '=' :: '0' :: ';'
        :: ESC :: '\\' :: rest)
      = stripImage rest := by
  have := stripImage_env ['m', '=', '0', ';'] rest (by decide)
  simpa using this

/-- An escape character not opening a graphics envelope survives
stripping. -/
theorem stripImage_esc_cons (c2 c3 : Char) (t : List Char)
    (h : ¬(c2 = '_' ∧ c3 = 'G')) :
    stripImage (ESC :: c2 :: c3 :: t) = ESC :: stripImage (c2 :: c3 :: t) := by
  simp only [stripImage]
  rw [if_neg (fun hh => h ⟨hh.2.1, hh.2.2⟩)]

/-- The cursor-forward escape `\x1b[2C` is not a graphics envelope and
survives stripping ahead of escape-free text. -/
theorem stripImage_trailer (suf : List Char) (hs : ∀ c ∈ suf, c ≠ ESC) :
    stripImage (ESC :: '[' :: '2' :: 'C' :: suf)
      = ESC :: '[' :: '2' :: 'C' :: suf := by
  rw [stripImage_esc_cons '[' '2' _ (by decide),
    stripImage_cons_ne '[' _ (by decide), stripImage_cons_ne '2' _
    (by decide), stripImage_cons_ne 'C' _ (by decide),
    stripImage_clean_id suf hs]

/-- All continuation sequences strip away. -/
theorem stripImage_contChunks :
    ∀ (l rest : List Char), (∀ c ∈ l, plainChar c) →
      stripImage (contChunks l ++ rest) = stripImage rest := by
  intro l
  induction l using contChunks.induct with
  | case1 =>
    intro rest h
    rw [contChunks, if_pos rfl]
    simp
  | case2 l hne ih =>
    intro rest h
    rw [contChunks, if_neg hne]
    have hshape :
        (ESC :: '_' :: 'G' :: 'm' :: '=' :: '1' :: ';' :: l.take CHUNK_SIZE
            ++ ESC :: '\\' :: contChunks (l.drop CHUNK_SIZE)) ++ rest
          = ESC :: '_' :: 'G'
              :: (('m' :: '=' :: '1' :: ';' :: l.take CHUNK_SIZE)
                ++ ESC :: '\\' :: (contChunks (l.drop CHUNK_SIZE) ++ rest)) := by
      simp [List.append_assoc]
    rw [hshape]
    rw [stripImage_env ('m' :: '=' :: '1' :: ';' :: l.take CHUNK_SIZE) _ ?_]
    · exact ih rest (fun c hc => h c (List.mem_of_mem_drop hc))
    · intro c hc
      rcases List.mem_cons.mp hc with h1 | h1
      · subst h1; exact ⟨by decide, by decide⟩
      · rcases List.mem_cons.mp h1 with h2 | h2
        · subst h2; exact ⟨by decide, by decide⟩
        · rcases List.mem_cons.mp h2 with h3 | h3
          · subst h3; exact ⟨by decide, by decide⟩
          · rcases List.mem_cons.mp h3 with h4 | h4
            · subst h4; exact ⟨by decide, by decide⟩
            · have := h c (List.mem_of_mem_take h4)
              exact ⟨this.1, this.2.1⟩

/-- Stripping an encoded image embedded between escape-free texts removes
every graphics envelope but keeps the trailing cursor-forward escape. -/
theorem stripImage_render (rgba : List Nat) (size ch : Nat)
    (pre suf : List Char) (hpre : ∀ c ∈ pre, c ≠ ESC)
    (hsuf : ∀ c ∈ suf, c ≠ ESC) :
    stripImage (pre ++ (renderImage rgba size ch ++ suf))
      = pre ++ ESC :: '[' :: '2' :: 'C' :: suf := by
  rw [stripImage_clean pre _ hpre]
  have hshape : renderImage rgba size ch ++ suf
      = ESC :: '_' :: 'G'
          :: (headerParams size (if ch > size then (ch - size) / 2 else 0)
            ++ ';' :: ((base64Encode rgba).take CHUNK_SIZE
              ++ ESC :: '\\'
                :: (contChunks ((base64Encode rgba).drop CHUNK_SIZE)
                  ++ ESC :: '_' :: 'G' :: 'm' :: '=' :: '0' :: ';'
                    :: ESC :: '\\' :: ESC :: '[' :: '2' :: 'C' :: suf))) := by
    simp [renderImage, List.append_assoc]
  rw [hshape]
  rw [stripImage_envHT _ _ _
    (fun c hc => (headerParams_plain _ _ c hc).elim
      (fun h1 h2 => ⟨h1, h2.1⟩))
    (fun c hc =>
      have := base64_plain rgba c (List.mem_of_mem_take hc)
      ⟨this.1, this.2.1⟩)]
  rw [stripImage_contChunks _ _
    (fun c hc => base64_plain rgba c (List.mem_of_mem_drop hc))]
  rw [stripImage_final, stripImage_trailer suf hsuf]

/-- C3 counterexample.  On the empty pixel buffer (any buffer behaves the
same), stripping `"prefix" + encoded + "suffix"` does not give
`"prefix" + "suffix"`: the encoder's trailing cursor-forward escape
`\x1b[2C` is not matched by the image-envelope pattern and survives. -/
theorem c3_strip_counterexample :
    stripImage ("prefix".data ++ (renderImage [] 1 0 ++ "suffix".data))
      ≠ "prefix".data ++ "suffix".data := by
  rw [stripImage_render [] 1 0 "prefix".data "suffix".data (by decide)
    (by decide)]
  decide

/-- C3 (amended).  For every pixel buffer and size, stripping
`"prefix" + encode(buffer, size) + "suffix"` yields exactly
`"prefix" + "\x1b[2C" + "suffix"`: every graphics envelope (the escape
sequences opening with `\x1b_G` and closing with `\x1b\\`) is removed,
non-greedily, leaving the surrounding text untouched, but the trailing
cursor-forward escape emitted after the envelopes survives. -/
theorem c3_strip_encoded (rgba : List Nat) (size cellHeight : Nat) :
    stripImage ("prefix".data
        ++ (renderImage rgba size cellHeight ++ "suffix".data))
      = "prefix".data ++ ESC :: '[' :: '2' :: 'C' :: "suffix".data :=
  stripImage_render rgba size cellHeight "prefix".data "suffix".data
    (by decide) (by decide)

/-- The character split finds the first appended separator. -/
theorem splitAtChar_append (t : Char) :
    ∀ (p rest : List Char), (∀ c ∈ p, c ≠ t) →
      splitAtChar t (p ++ t :: rest) = some (p, rest) := by
  intro p
  induction p with
  | nil =>
    intro rest h
    simp [splitAtChar]
  | cons c q ih =>
    intro rest h
    rw [List.cons_append]
    simp only [splitAtChar]
    rw [if_neg (h c (by simp)), ih rest (fun x hx => h x (by simp [hx]))]
    rfl

/-- The terminator split over an escape-free text finds the appended
terminator. -/
theorem splitAtST_append :
    ∀ (p rest : List Char), (∀ c ∈ p, c ≠ ESC) →
      splitAtST (p ++ ESC :: '\\' :: rest) = some (p, rest) := by
  intro p
  induction p with
  | nil =>
    intro rest h
    simp [splitAtST]
  | cons c q ih =>
    intro rest h
    have hc := h c (by simp)
    cases q with
    | nil =>
      show splitAtST (c :: ESC :: '\\' :: rest) = some ([c], rest)
      simp only [splitAtST]
      rw [if_neg (fun hh => hc hh.1)]
      simp [splitAtST]
    | cons d q' =>
      show splitAtST (c :: d :: (q' ++ ESC :: '\\' :: rest))
        = some (c :: d :: q', rest)
      simp only [splitAtST]
      rw [if_neg (fun hh => hc hh.1),
        show d :: (q' ++ ESC :: '\\' :: rest)
          = (d :: q') ++ ESC :: '\\' :: rest from rfl,
        ih rest (fun x hx => h x (by simp [List.mem_cons] at hx ⊢; tauto))]
      rfl

/-- A non-escape character is skipped by envelope extraction. -/
theorem extract_cons_ne (c c2 c3 : Char) (t : List Char) (h : c ≠ ESC) :
    extractEnvelopes (c :: c2 :: c3 :: t)
      = extractEnvelopes (c2 :: c3 :: t) := by
  simp only [extractEnvelopes]
  rw [if_neg (fun hh => h hh.1)]

/-- An escape character not opening an envelope is skipped by
extraction. -/
theorem extract_esc_ne (c2 c3 : Char) (t : List Char)
    (h : ¬(c2 = '_' ∧ c3 = 'G')) :
    extractEnvelopes (ESC :: c2 :: c3 :: t)
      = extractEnvelopes (c2 :: c3 :: t) := by
  simp only [extractEnvelopes]
  rw [if_neg (fun hh => h ⟨hh.2.1, hh.2.2⟩)]

/-- A well-formed envelope is extracted as its (params, payload) pair and
extraction continues after its terminator. -/
theorem extract_env (pm payload rest : List Char)
    (hpm : ∀ c ∈ pm, c ≠ ';') (hpl : ∀ c ∈ payload, c ≠ ESC) :
    extractEnvelopes
        (ESC :: '_' :: 'G' :: (pm ++ ';' :: (payload ++ ESC :: '\\' :: rest)))
      = (pm, payload) :: extractEnvelopes rest := by
  have h1 : splitAtChar ';' (pm ++ ';' :: (payload ++ ESC :: '\\' :: rest))
      = some (pm, payload ++ ESC :: '\\' :: rest) :=
    splitAtChar_append ';' pm _ hpm
  have h2 : splitAtST (payload ++ ESC :: '\\' :: rest)
      = some (payload, rest) :=
    splitAtST_append payload rest hpl
  simp only [extractEnvelopes]
  rw [if_pos (show True ∧ True ∧ True from ⟨trivial, trivial, trivial⟩)]
  split
  · rename_i pr hpr
    rw [h1] at hpr
    cases hpr
    split
    · rename_i py hpy
      rw [h2] at hpy
      cases hpy
      rfl
    · rename_i hpy
      rw [h2] at hpy
      cases hpy
  · rename_i hpr
    rw [h1] at hpr
    cases hpr

/-- Concatenating the chunks reconstructs the text. -/
theorem chunksOf_join : ∀ l : List Char, (chunksOf l).flatten = l := by
  intro l
  induction l using chunksOf.induct with
  | case1 =>
    rw [chunksOf, if_pos rfl]
    rfl
  | case2 l hne ih =>
    rw [chunksOf, if_neg hne]
    simp [ih]

/-- Every chunk has at most `CHUNK_SIZE` characters. -/
theorem chunksOf_mem_length :
    ∀ (l : List Char) (c : List Char), c ∈ chunksOf l →
      c.length ≤ CHUNK_SIZE := by
  intro l
  induction l using chunksOf.induct with
  | case1 =>
    intro c hc
    rw [chunksOf, if_pos rfl] at hc
    simp at hc
  | case2 l hne ih =>
    intro c hc
    rw [chunksOf, if_neg hne] at hc
    rcases List.mem_cons.mp hc with h | h
    · subst h
      rw [List.length_take]
      omega
    · exact ih c h

/-- All continuation sequences extract to `("m=1", chunk)` pairs. -/
theorem extract_contChunks :
    ∀ (l rest : List Char), (∀ c ∈ l, plainChar c) →
      extractEnvelopes (contChunks l ++ rest)
        = (chunksOf l).map (fun ch => (['m', '=', '1'], ch))
          ++ extractEnvelopes rest := by
  intro l
  induction l using contChunks.induct with
  | case1 =>
    intro rest h
    rw [contChunks, if_pos rfl, chunksOf, if_pos rfl]
    simp
  | case2 l hne ih =>
    intro rest h
    rw [contChunks, if_neg hne, chunksOf, if_neg hne]
    have hshape :
        (ESC :: '_' :: 'G' :: 'm' :: '=' :: '1' :: ';' :: l.take CHUNK_SIZE
            ++ ESC :: '\\' :: contChunks (l.drop CHUNK_SIZE)) ++ rest
          = ESC :: '_' :: 'G'
              :: (['m', '=', '1'] ++ ';' :: (l.take CHUNK_SIZE
                ++ ESC :: '\\' :: (contChunks (l.drop CHUNK_SIZE) ++ rest))) := by
      simp [List.append_assoc]
    rw [hshape,
      extract_env ['m', '=', '1'] (l.take CHUNK_SIZE) _ (by decide)
        (fun c hc => (h c (List.mem_of_mem_take hc)).1),
      ih rest (fun c hc => h c (List.mem_of_mem_drop hc))]
    simp

/-- Extraction of the full encoder output: the leading envelope with the
placement parameters and the first payload slice, one `m=1` envelope per
further slice, and the terminating `m=0` envelope with an empty payload;
the cursor-forward trailer contributes nothing. -/
theorem extract_render (rgba : List Nat) (size ch : Nat) :
    extractEnvelopes (renderImage rgba size ch)
      = (headerParams size (if ch > size then (ch - size) / 2 else 0),
          (base64Encode rgba).take CHUNK_SIZE)
        :: ((chunksOf ((base64Encode rgba).drop CHUNK_SIZE)).map
              (fun c => (['m', '=', '1'], c))
            ++ [(['m', '=', '0'], [])]) := by
  have htrailer : extractEnvelopes (ESC :: '[' :: '2' :: 'C' :: []) = [] := by
    rw [extract_esc_ne '[' '2' _ (by decide)]
    rw [extract_cons_ne '[' '2' 'C' [] (by decide)]
    simp [extractEnvelopes]
  have hfinal :
      extractEnvelopes (ESC :: '_' :: 'G' :: 'm' :: '=' :: '0' :: ';'
          :: ESC :: '\\' :: ESC :: '[' :: '2' :: 'C' :: [])
        = [(['m', '=', '0'], [])] := by
    have := extract_env ['m', '=', '0'] []
      (ESC :: '[' :: '2' :: 'C' :: []) (by decide) (by decide)
    simp only [List.nil_append, List.cons_append] at this
    rw [this, htrailer]
  have hshape : renderImage rgba size ch
      = ESC :: '_' :: 'G'
          :: (headerParams size (if ch > size then (ch - size) / 2 else 0)
            ++ ';' :: ((base64Encode rgba).take CHUNK_SIZE
              ++ ESC :: '\\'
                :: (contChunks ((base64Encode rgba).drop CHUNK_SIZE)
                  ++ ESC :: '_' :: 'G' :: 'm' :: '=' :: '0' :: ';'
                    :: ESC :: '\\' :: ESC :: '[' :: '2' :: 'C' :: []))) := by
    simp [renderImage, List.append_assoc]
  rw [hshape,
    extract_env _ _ _
      (fun c hc => (headerParams_plain _ _ c hc).2.2)
      (fun c hc => (base64_plain rgba c (List.mem_of_mem_take hc)).1),
    extract_contChunks _ _
      (fun c hc => base64_plain rgba c (List.mem_of_mem_drop hc)),
    hfinal]

/-- The leading parameter list carries the more-data flag set. -/
theorem moreFlag_header (size offY : Nat) :
    moreFlag (headerParams size offY) = some true := rfl

/-- C4.  For every pixel buffer and size: concatenating the payload slices
of the extracted control sequences reconstructs the base64 encoding
exactly; no slice exceeds 4096 characters; every control sequence except
the last has the more-data flag set; the last is the single terminating
sequence, with an empty payload and the flag cleared; and the envelopes
parse back intact, so no chunk boundary splits a control sequence. -/
theorem c4_chunking (rgba : List Nat) (size cellHeight : Nat) :
    ((extractEnvelopes (renderImage rgba size cellHeight)).map
        Prod.snd).flatten = base64Encode rgba
    ∧ (extractEnvelopes (renderImage rgba size cellHeight)).all
        (fun e => e.2.length ≤ CHUNK_SIZE) = true
    ∧ ((extractEnvelopes (renderImage rgba size cellHeight)).dropLast).all
        (fun e => moreFlag e.1 == some true) = true
    ∧ (∃ pm, (extractEnvelopes
          (renderImage rgba size cellHeight)).getLast? = some (pm, [])
        ∧ moreFlag pm = some false)
    ∧ ((extractEnvelopes (renderImage rgba size cellHeight)).filter
        (fun e => moreFlag e.1 == some false)).length = 1 := by
  rw [extract_render]
  set A : List Char × List Char :=
    (headerParams size (if cellHeight > size then (cellHeight - size) / 2
        else 0),
      (base64Encode rgba).take CHUNK_SIZE) with hA
  set Bs : List (List Char × List Char) :=
    (chunksOf ((base64Encode rgba).drop CHUNK_SIZE)).map
      (fun c => (['m', '=', '1'], c)) with hBs
  have hBsflag : ∀ e ∈ Bs, e.1 = ['m', '=', '1'] := by
    intro e he
    rcases List.mem_map.mp he with ⟨c, hc, rfl⟩
    rfl
  have hshape : A :: (Bs ++ [(['m', '=', '0'], ([] : List Char))])
      = (A :: Bs) ++ [(['m', '=', '0'], [])] := rfl
  refine ⟨?_, ?_, ?_, ?_, ?_⟩
  · simp only [List.map_cons, List.map_append, List.flatten_cons,
      List.flatten_append, hBs, List.map_map]
    have hsnd : (Prod.snd ∘ fun c : List Char => (['m', '=', '1'], c))
        = id := rfl
    rw [hsnd, List.map_id, chunksOf_join]
    simp [hA, List.take_append_drop]
  · rw [List.all_cons, Bool.and_eq_true]
    refine ⟨?_, ?_⟩
    · simp only [hA, decide_eq_true_eq, List.length_take]
      omega
    · rw [List.all_append, Bool.and_eq_true]
      refine ⟨?_, ?_⟩
      · rw [List.all_eq_true]
        intro e he
        rcases List.mem_map.mp (hBs ▸ he) with ⟨c, hc, rfl⟩
        simpa using chunksOf_mem_length _ c hc
      · simp [CHUNK_SIZE]
  · rw [hshape, List.dropLast_concat, List.all_cons, Bool.and_eq_true]
    refine ⟨?_, ?_⟩
    · simp [hA, moreFlag_header]
    · rw [List.all_eq_true]
      intro e he
      rw [hBsflag e he]
      rfl
  · refine ⟨['m', '=', '0'], ?_, rfl⟩
    rw [hshape, List.getLast?_concat]
  · rw [hshape, List.filter_append, List.filter_cons]
    have hAflag : (moreFlag A.1 == some false) = false := by
      simp [hA, moreFlag_header]
    rw [hAflag]
    have hBsnil : Bs.filter (fun e => moreFlag e.1 == some false) = [] := by
      rw [List.filter_eq_nil_iff]
      intro e he
      rw [hBsflag e he]
      decide
    rw [if_neg (by simp), hBsnil]
    rfl

/-! ## C9 — unreadable directory entries -/

/-- `get_node` can only panic in `Node::new`: whenever the stat succeeds,
it returns cleanly (a node or a filtered-out `none`). -/
theorem getNode_ok (only exclude : Option (String → Bool)) (typs : List Typ)
    (specsFor : String → List Spec) (visible : Node → Bool)
    (stat : String → Option Meta) (nm : String)
    (h : stat nm ≠ Option.none) :
    ∃ nd, getNode only exclude typs specsFor visible stat nm
      = Except.ok nd := by
  unfold getNode Node.new
  cases hs : stat nm with
  | none => exact absurd hs h
  | some m =>
    have hb : ∀ (x : Node) (f : Node → Except String (Option Node)),
        (Except.ok x >>= f) = f x := fun _ _ => rfl
    simp only [pure_bind, bind_assoc, hb]
    repeat' split
    all_goals exact ⟨_, rfl⟩

/-- Stat lookup fixture: every path stats successfully. -/
def statFix : String → Option Meta := fun _ => some metaSmall

/-- C9 counterexample.  A directory entry that enumerates successfully but
whose stat then fails (a file vanished between enumeration and stat) is
not skipped: `Node::new` unwraps the stat result, so the listing aborts
with a panic instead of completing with the remaining entries (here, with
the empty listing the claim predicts). -/
theorem c9_vanished_entry_aborts :
    getContents Option.none Option.none [Typ.file] (fun _ => [])
        (fun _ => true) (fun _ => Option.none) [some "ghost"]
      = Except.error unwrapPanicMsg
    ∧ getContents Option.none Option.none [Typ.file] (fun _ => [])
        (fun _ => true) (fun _ => Option.none) [some "ghost"]
      ≠ Except.ok [] := by
  refine ⟨rfl, fun h => ?_⟩
  exact Except.noConfusion h

/-- C9 (amended).  An entry whose directory-iteration result is an error is
silently skipped — only that entry is dropped and the listing continues;
and whenever every successfully enumerated entry also stats successfully,
the whole listing completes without aborting.  (An entry that enumerates
but fails to stat aborts the listing instead — see the counterexample.) -/
theorem c9_iteration_errors_skipped :
    (∀ (only exclude : Option (String → Bool)) (typs : List Typ)
        (specsFor : String → List Spec) (visible : Node → Bool)
        (stat : String → Option Meta) (rest : List (Option String)),
      getContents only exclude typs specsFor visible stat
          (Option.none :: rest)
        = getContents only exclude typs specsFor visible stat rest)
    ∧ (∀ (only exclude : Option (String → Bool)) (typs : List Typ)
        (specsFor : String → List Spec) (visible : Node → Bool)
        (stat : String → Option Meta) (entries : List (Option String)),
      (∀ nm, some nm ∈ entries → stat nm ≠ Option.none) →
      ∃ ns, getContents only exclude typs specsFor visible stat entries
        = Except.ok ns) := by
  constructor
  · intro only exclude typs specsFor visible stat rest
    rfl
  · intro only exclude typs specsFor visible stat entries
    induction entries with
    | nil => exact fun _ => ⟨[], rfl⟩
    | cons o rest ih =>
      intro h
      cases o with
      | none =>
        exact ih (fun nm hnm => h nm (by simp [hnm]))
      | some nm =>
        obtain ⟨nd, hnd⟩ := getNode_ok only exclude typs specsFor visible
          stat nm (h nm (by simp))
        obtain ⟨ns, hns⟩ := ih (fun x hx => h x (by simp [hx]))
        cases nd with
        | none =>
          refine ⟨ns, ?_⟩
          simp only [getContents, hnd, hns]
          rfl
        | some n =>
          refine ⟨n :: ns, ?_⟩
          simp only [getContents, hnd, hns]
          rfl

/-- C9 witness: a listing with one iteration error and one healthy entry
skips the error and completes. -/
theorem c9_iteration_errors_skipped_witness :
    (getContents Option.none Option.none [Typ.file] (fun _ => [])
        (fun _ => true) statFix (Option.none :: [some "a.txt"])
      = getContents Option.none Option.none [Typ.file] (fun _ => [])
        (fun _ => true) statFix [some "a.txt"])
    ∧ (∀ nm, some nm ∈ [Option.none, some "a.txt"] →
        statFix nm ≠ Option.none)
    ∧ ∃ ns, getContents Option.none Option.none [Typ.file] (fun _ => [])
        (fun _ => true) statFix [Option.none, some "a.txt"]
      = Except.ok ns :=
  ⟨c9_iteration_errors_skipped.1 Option.none Option.none [Typ.file]
      (fun _ => []) (fun _ => true) statFix [some "a.txt"],
   fun nm _ => by simp [statFix],
   c9_iteration_errors_skipped.2 Option.none Option.none [Typ.file]
      (fun _ => []) (fun _ => true) statFix [Option.none, some "a.txt"]
      (fun nm _ => by simp [statFix])⟩
